import Mathlib

/-!
Verification of `transformers_neuronx/module.py`: split checkpoint store,
low-memory module loading/materialization, nullify, and the greedy decoder.

Parameter names, manifest keys and file names are modelled as `List Char`
(the character sequence of the Python `str`). Python builtins that the code
delegates to (`str.strip`, `str.replace`, the `re` module's character class
`\w`, decimal formatting of an `int` in an f-string) are modelled explicitly
below; the `\w` class and the whitespace set are modelled over their ASCII
fragment, which is all the claims exercise.
-/

namespace NeuronxModule

abbrev Name := List Char

/-- Model of the whitespace set stripped by Python `str.strip()`
(ASCII fragment). -/
def pyIsSpace (c : Char) : Bool :=
  c = ' ' || c = '\t' || c = '\n' || c = '\r' || c = Char.ofNat 11 || c = Char.ofNat 12

/-- Python `name.strip()`: drop whitespace from both ends. -/
def pyStrip (s : Name) : Name :=
  ((s.dropWhile pyIsSpace).reverse.dropWhile pyIsSpace).reverse

/-- Model of the regex class `\w` (ASCII fragment: letters, digits,
underscore). -/
def pyIsWordChar (c : Char) : Bool :=
  c.isAlpha || c.isDigit || c = '_'

/-- The characters kept by `re.sub(r'(?u)[^-\w.]', '', sanitized)`:
word characters, hyphen and dot survive, everything else is deleted. -/
def keepChar (c : Char) : Bool :=
  pyIsWordChar c || c = '-' || c = '.'

/-- `sanitize_file_name` from module.py: strip, replace each space by an
underscore, delete every character outside `[-\w.]`, and raise `ValueError`
(modelled as `Except.error`) when the result is `""`, `"."` or `".."`. -/
def sanitize_file_name (name : Name) : Except String Name :=
  let sanitized := ((pyStrip name).map (fun c => if c = ' ' then '_' else c)).filter keepChar
  if sanitized = [] ∨ sanitized = ['.'] ∨ sanitized = ['.', '.'] then
    .error "Could not sanitize to file name."
  else
    .ok sanitized

/-- The sanitization pipeline as the spec words it: trimming surrounding
whitespace, then replacing each space with an underscore, then deleting
every character that is not a word character, hyphen, or dot. -/
def sanitizeSpec (name : Name) : Name :=
  let trimmed := pyStrip name
  let underscored := trimmed.map (fun c => if c = ' ' then '_' else c)
  underscored.filter (fun c => pyIsWordChar c || c = '-' || c = '.')

/-- The three results the sanitizer rejects. -/
def badSanitized : List Name := [[], ['.'], ['.', '.']]

/-- Decimal digit characters, fuel-structured so that it reduces
definitionally; the fuel in `natChars` always suffices. -/
def natCharsAux : Nat → Nat → List Char
  | 0, _ => []
  | fuel + 1, n =>
    if n < 10 then [Nat.digitChar n]
    else natCharsAux fuel (n / 10) ++ [Nat.digitChar (n % 10)]

/-- Decimal digit characters of a natural number, most significant first:
the model of `f'{idx}'`. -/
def natChars (n : Nat) : List Char := natCharsAux (n + 1) n

/-- Numeric value of a digit character. -/
def digitVal (c : Char) : Nat := c.toNat - '0'.toNat

/-- Decimal value of a digit string, used to show `natChars` really is the
decimal representation (and hence injective). -/
def parseDigits (l : List Char) : Nat :=
  l.foldl (fun a c => a * 10 + digitVal c) 0

theorem digitVal_digitChar {n : Nat} (h : n < 10) : digitVal (Nat.digitChar n) = n := by
  interval_cases n <;> decide

theorem digitChar_ne_dot {n : Nat} (h : n < 10) : Nat.digitChar n ≠ '.' := by
  interval_cases n <;> decide

theorem natCharsAux_foldl :
    ∀ (fuel n : Nat), n < fuel → ∀ a : Nat,
      (natCharsAux fuel n).foldl (fun a c => a * 10 + digitVal c) a =
        a * 10 ^ (natCharsAux fuel n).length + n := by
  intro fuel
  induction fuel with
  | zero => intro n h; omega
  | succ fuel ih =>
    intro n hn a
    simp only [natCharsAux]
    by_cases h : n < 10
    · rw [if_pos h]
      simp [List.foldl, digitVal_digitChar h]
    · rw [if_neg h]
      have hdiv : n / 10 < fuel := by
        have := Nat.div_lt_self (show 0 < n by omega) (show 1 < 10 by omega)
        omega
      rw [List.foldl_append, ih (n / 10) hdiv a]
      simp only [List.foldl]
      rw [List.length_append]
      have hmod : n % 10 < 10 := Nat.mod_lt _ (by omega)
      rw [digitVal_digitChar hmod]
      have hnm : n = 10 * (n / 10) + n % 10 := (Nat.div_add_mod n 10).symm
      simp [List.length, pow_succ]
      ring_nf
      omega

theorem natChars_foldl (n : Nat) :
    ∀ a : Nat, (natChars n).foldl (fun a c => a * 10 + digitVal c) a =
      a * 10 ^ (natChars n).length + n :=
  fun a => natCharsAux_foldl (n + 1) n (Nat.lt_succ_self n) a

theorem parseDigits_natChars (n : Nat) : parseDigits (natChars n) = n := by
  have := natChars_foldl n 0
  simpa [parseDigits] using this

theorem natChars_injective : Function.Injective natChars := by
  intro m n h
  have hm := parseDigits_natChars m
  have hn := parseDigits_natChars n
  rw [h] at hm
  omega

theorem dot_notMem_natCharsAux : ∀ fuel n, '.' ∉ natCharsAux fuel n := by
  intro fuel
  induction fuel with
  | zero => intro n; simp [natCharsAux]
  | succ fuel ih =>
    intro n
    simp only [natCharsAux]
    by_cases h : n < 10
    · rw [if_pos h]
      intro hmem
      exact digitChar_ne_dot h (List.mem_singleton.mp hmem).symm
    · rw [if_neg h]
      intro hmem
      rcases List.mem_append.mp hmem with h1 | h2
      · exact ih (n / 10) h1
      · exact digitChar_ne_dot (Nat.mod_lt _ (by omega)) (List.mem_singleton.mp h2).symm

theorem dot_notMem_natChars (n : Nat) : '.' ∉ natChars n :=
  dot_notMem_natCharsAux (n + 1) n

/-- On-disk file name assigned to enumeration position `idx` with sanitized
body `s`: the model of `f'p{idx}.{sanitize_file_name(key)}'`. -/
def fileChars (idx : Nat) (s : Name) : Name :=
  'p' :: (natChars idx ++ '.' :: s)

theorem dot_split_unique :
    ∀ (l1 : List Char) (l2 r1 r2 : List Char), '.' ∉ l1 → '.' ∉ l2 →
      l1 ++ '.' :: r1 = l2 ++ '.' :: r2 → l1 = l2 ∧ r1 = r2 := by
  intro l1
  induction l1 with
  | nil =>
    intro l2 r1 r2 _ h2 heq
    cases l2 with
    | nil => simpa using heq
    | cons b bs =>
      simp only [List.nil_append, List.cons_append, List.cons.injEq] at heq
      have hb : b = '.' := heq.1.symm
      exact absurd (by simp [hb] : '.' ∈ b :: bs) h2
  | cons a as ih =>
    intro l2 r1 r2 h1 h2 heq
    cases l2 with
    | nil =>
      simp only [List.cons_append, List.nil_append, List.cons.injEq] at heq
      exact absurd (by simp [heq.1] : '.' ∈ a :: as) h1
    | cons b bs =>
      simp only [List.cons_append, List.cons.injEq] at heq
      have h1' : '.' ∉ as := fun hh => h1 (List.mem_cons_of_mem a hh)
      have h2' : '.' ∉ bs := fun hh => h2 (List.mem_cons_of_mem b hh)
      have := ih bs r1 r2 h1' h2' heq.2
      exact ⟨by rw [heq.1, this.1], this.2⟩

theorem fileChars_inj {i j : Nat} {s t : Name} (h : fileChars i s = fileChars j t) :
    i = j ∧ s = t := by
  simp only [fileChars, List.cons.injEq, true_and] at h
  have := dot_split_unique (natChars i) (natChars j) s t
    (dot_notMem_natChars i) (dot_notMem_natChars j) h
  exact ⟨natChars_injective this.1, this.2⟩

/-! ### Split checkpoint store: `save_split` -/

/-- First-match association lookup, the model of a Python `dict` lookup
(keys are unique wherever we instantiate it). -/
def lookupA {β : Type} : List (Name × β) → Name → Option β
  | [], _ => none
  | (k, v) :: rest, q => if q = k then some v else lookupA rest q

/-- Point update of the modelled file system: `torch.save(tensor, path)`
overwrites whatever was at `path`. -/
def fsUpdate {β : Type} (fs : Name → Option β) (p : Name) (t : β) : Name → Option β :=
  fun q => if q = p then some t else fs q

/-- The first loop of `save_split`: `for idx, key in enumerate(state_dict.keys()):
key_to_filename[key] = f'p{idx}.{sanitize_file_name(key)}'`. The whole
mapping is built (every key sanitized) before anything is written; a
`ValueError` from the sanitizer propagates out of `save_split` here. -/
def buildKeyToFilename : List Name → Nat → Except String (List (Name × Name))
  | [], _ => .ok []
  | k :: ks, idx =>
    match sanitize_file_name k with
    | .error e => .error e
    | .ok s =>
      match buildKeyToFilename ks (idx + 1) with
      | .error e => .error e
      | .ok rest => .ok ((k, fileChars idx s) :: rest)

/-- The second loop of `save_split`: `for key, tensor in state_dict.items():
torch.save(tensor, os.path.join(save_dir, key_to_filename[key]))`.
A key absent from `key_to_filename` would be a Python `KeyError`
(modelled as `Except.error`; unreachable from `save_split`). -/
def writeTensors {β : Type} (m : List (Name × Name)) :
    List (Name × β) → (Name → Option β) → Except String (Name → Option β)
  | [], fs => .ok fs
  | (k, t) :: rest, fs =>
    match lookupA m k with
    | none => .error "KeyError"
    | some fn => writeTensors m rest (fsUpdate fs fn t)

/-- `save_split(state_dict, save_dir)`: build the name→file-name manifest
(sanitizing every key first), dump it as the `key_to_filename.json`
side-car, then write each tensor to its assigned file. The result is the
manifest together with the directory contents (file name → tensor); the
tensor serialization codec is external and modelled as the identity. -/
def saveSplit {β : Type} (sd : List (Name × β)) :
    Except String (List (Name × Name) × (Name → Option β)) :=
  match buildKeyToFilename (sd.map Prod.fst) 0 with
  | .error e => .error e
  | .ok m =>
    match writeTensors m sd (fun _ => none) with
    | .error e => .error e
    | .ok fs => .ok (m, fs)

theorem buildKeyToFilename_ok_iff (ks : List Name) (idx : Nat) :
    (∃ m, buildKeyToFilename ks idx = .ok m) ↔
      ∀ k ∈ ks, ∃ r, sanitize_file_name k = .ok r := by
  induction ks generalizing idx with
  | nil => simp [buildKeyToFilename]
  | cons k ks ih =>
    constructor
    · rintro ⟨m, hm⟩
      simp only [buildKeyToFilename] at hm
      intro k' hk'
      rcases List.mem_cons.mp hk' with h | h
      · subst h
        cases hs : sanitize_file_name k' with
        | error e => rw [hs] at hm; exact absurd hm (by simp)
        | ok r => exact ⟨r, rfl⟩
      · cases hs : sanitize_file_name k with
        | error e => rw [hs] at hm; exact absurd hm (by simp)
        | ok r =>
          rw [hs] at hm
          cases hrest : buildKeyToFilename ks (idx + 1) with
          | error e => rw [hrest] at hm; exact absurd hm (by simp)
          | ok rest => exact (ih (idx + 1)).mp ⟨rest, hrest⟩ k' h
    · intro hall
      obtain ⟨r, hr⟩ := hall k (List.mem_cons_self k ks)
      obtain ⟨rest, hrest⟩ := (ih (idx + 1)).mpr (fun k' hk' => hall k' (List.mem_cons_of_mem k hk'))
      exact ⟨(k, fileChars idx r) :: rest, by simp [buildKeyToFilename, hr, hrest]⟩

theorem buildKeyToFilename_keys (ks : List Name) (idx : Nat)
    (m : List (Name × Name)) (h : buildKeyToFilename ks idx = .ok m) :
    m.map Prod.fst = ks := by
  induction ks generalizing idx m with
  | nil => simp [buildKeyToFilename] at h; simp [← h]
  | cons k ks ih =>
    simp only [buildKeyToFilename] at h
    cases hs : sanitize_file_name k with
    | error e => rw [hs] at h; exact absurd h (by simp)
    | ok r =>
      rw [hs] at h
      cases hrest : buildKeyToFilename ks (idx + 1) with
      | error e => rw [hrest] at h; exact absurd h (by simp)
      | ok rest =>
        rw [hrest] at h
        simp only [Except.ok.injEq] at h
        subst h
        simp [ih (idx + 1) rest hrest]

/-- Every file name in a manifest built starting at index `idx` is
`fileChars j s` for some `j ≥ idx`. -/
theorem buildKeyToFilename_mem_form (ks : List Name) (idx : Nat)
    (m : List (Name × Name)) (h : buildKeyToFilename ks idx = .ok m) :
    ∀ e ∈ m, ∃ j s, idx ≤ j ∧ e.2 = fileChars j s := by
  induction ks generalizing idx m with
  | nil => simp [buildKeyToFilename] at h; subst h; simp
  | cons k ks ih =>
    simp only [buildKeyToFilename] at h
    cases hs : sanitize_file_name k with
    | error e => rw [hs] at h; exact absurd h (by simp)
    | ok r =>
      rw [hs] at h
      cases hrest : buildKeyToFilename ks (idx + 1) with
      | error e => rw [hrest] at h; exact absurd h (by simp)
      | ok rest =>
        rw [hrest] at h
        simp only [Except.ok.injEq] at h
        subst h
        intro e he
        rcases List.mem_cons.mp he with h1 | h1
        · exact ⟨idx, r, le_refl idx, by rw [h1]⟩
        · obtain ⟨j, s, hj, hf⟩ := ih (idx + 1) rest hrest e h1
          exact ⟨j, s, by omega, hf⟩

/-- Distinct enumeration positions get distinct file names: the index
prefix makes the assignment collision-free even when sanitized bodies
coincide. -/
theorem buildKeyToFilename_nodup (ks : List Name) (idx : Nat)
    (m : List (Name × Name)) (h : buildKeyToFilename ks idx = .ok m) :
    (m.map Prod.snd).Nodup := by
  induction ks generalizing idx m with
  | nil => simp [buildKeyToFilename] at h; subst h; simp
  | cons k ks ih =>
    simp only [buildKeyToFilename] at h
    cases hs : sanitize_file_name k with
    | error e => rw [hs] at h; exact absurd h (by simp)
    | ok r =>
      rw [hs] at h
      cases hrest : buildKeyToFilename ks (idx + 1) with
      | error e => rw [hrest] at h; exact absurd h (by simp)
      | ok rest =>
        rw [hrest] at h
        simp only [Except.ok.injEq] at h
        subst h
        simp only [List.map_cons, List.nodup_cons]
        refine ⟨?_, ih (idx + 1) rest hrest⟩
        intro hmem
        obtain ⟨e, he, heq⟩ := List.mem_map.mp hmem
        obtain ⟨j, s, hj, hf⟩ := buildKeyToFilename_mem_form ks (idx + 1) rest hrest e he
        rw [hf] at heq
        have := fileChars_inj heq
        omega

/-- Whether an `Except` value is a success. -/
def exceptOk {ε α : Type} : Except ε α → Bool
  | .ok _ => true
  | .error _ => false

theorem exceptOk_iff {ε α : Type} (x : Except ε α) :
    exceptOk x = true ↔ ∃ r, x = .ok r := by
  cases x <;> simp [exceptOk]

theorem lookupA_mem {β : Type} (l : List (Name × β)) (q : Name) (v : β)
    (h : lookupA l q = some v) : (q, v) ∈ l := by
  induction l with
  | nil => simp [lookupA] at h
  | cons e rest ih =>
    obtain ⟨k, w⟩ := e
    simp only [lookupA] at h
    by_cases hq : q = k
    · rw [if_pos hq] at h
      simp only [Option.some.injEq] at h
      subst hq; subst h
      exact List.mem_cons_self _ _
    · rw [if_neg hq] at h
      exact List.mem_cons_of_mem _ (ih h)

theorem lookupA_eq_none_iff {β : Type} (l : List (Name × β)) (q : Name) :
    lookupA l q = none ↔ q ∉ l.map Prod.fst := by
  induction l with
  | nil => simp [lookupA]
  | cons e rest ih =>
    obtain ⟨k, w⟩ := e
    by_cases hq : q = k
    · rw [hq]
      simp only [lookupA, if_pos rfl, List.map_cons, List.mem_cons]
      constructor
      · intro h; exact absurd h (by simp)
      · intro h; exact absurd (Or.inl trivial) h
    · simp only [lookupA, if_neg hq, List.map_cons, List.mem_cons]
      rw [ih]
      constructor
      · intro h hmem
        rcases hmem with h1 | h1
        · exact hq h1
        · exact h h1
      · intro h hmem
        exact h (Or.inr hmem)

theorem lookupA_isSome_of_mem {β : Type} (l : List (Name × β)) (q : Name)
    (h : q ∈ l.map Prod.fst) : ∃ v, lookupA l q = some v := by
  cases hv : lookupA l q with
  | none => exact absurd ((lookupA_eq_none_iff l q).mp hv) (by simp [h])
  | some v => exact ⟨v, rfl⟩

/-- In an association list whose second components are `Nodup`, two
entries sharing the second component coincide in the first. -/
theorem mem_snd_nodup_inj {β : Type} [DecidableEq β] (l : List (Name × β))
    (hnd : (l.map Prod.snd).Nodup) (k1 k2 : Name) (f : β)
    (h1 : (k1, f) ∈ l) (h2 : (k2, f) ∈ l) : k1 = k2 := by
  induction l with
  | nil => simp at h1
  | cons e rest ih =>
    simp only [List.map_cons, List.nodup_cons] at hnd
    rcases List.mem_cons.mp h1 with ha | ha <;> rcases List.mem_cons.mp h2 with hb | hb
    · exact congrArg Prod.fst (ha.trans hb.symm)
    · exfalso
      apply hnd.1
      have : e.2 = f := by rw [← ha]
      rw [this]
      exact List.mem_map.mpr ⟨(k2, f), hb, rfl⟩
    · exfalso
      apply hnd.1
      have : e.2 = f := by rw [← hb]
      rw [this]
      exact List.mem_map.mpr ⟨(k1, f), ha, rfl⟩
    · exact ih hnd.2 ha hb

/-- Main correctness of the tensor-writing loop: with unique keys,
total manifest coverage and an injective file-name assignment, every
tensor ends up readable at its manifest-assigned file name, and paths
assigned to no key keep their previous contents. -/
theorem writeTensors_correct {β : Type} (m : List (Name × Name)) :
    ∀ (sd : List (Name × β)) (fs : Name → Option β),
      (sd.map Prod.fst).Nodup →
      (∀ k ∈ sd.map Prod.fst, ∃ fn, lookupA m k = some fn) →
      (∀ k1 k2 f, lookupA m k1 = some f → lookupA m k2 = some f → k1 = k2) →
      ∃ fs', writeTensors m sd fs = .ok fs' ∧
        (∀ k v, lookupA sd k = some v → ∃ fn, lookupA m k = some fn ∧ fs' fn = some v) ∧
        (∀ p, (∀ k ∈ sd.map Prod.fst, lookupA m k ≠ some p) → fs' p = fs p) := by
  intro sd
  induction sd with
  | nil =>
    intro fs _ _ _
    exact ⟨fs, rfl, by simp [lookupA], fun p _ => rfl⟩
  | cons e rest ih =>
    obtain ⟨k, t⟩ := e
    intro fs hnd hcov hinj
    simp only [List.map_cons, List.nodup_cons] at hnd
    obtain ⟨fn, hfn⟩ := hcov k (by rw [List.map_cons]; exact List.mem_cons_self _ _)
    obtain ⟨fs', hw, hround, huntouched⟩ :=
      ih (fsUpdate fs fn t) hnd.2 (fun k' hk' => hcov k' (List.mem_cons_of_mem _ hk')) hinj
    refine ⟨fs', ?_, ?_, ?_⟩
    · simp only [writeTensors, hfn]
      exact hw
    · intro k' v hv
      simp only [lookupA] at hv
      by_cases hk : k' = k
      · rw [if_pos hk] at hv
        simp only [Option.some.injEq] at hv
        refine ⟨fn, by rw [hk]; exact hfn, ?_⟩
        have hnofn : ∀ k'' ∈ rest.map Prod.fst, lookupA m k'' ≠ some fn := by
          intro k'' hk'' hcontra
          exact hnd.1 ((hinj k'' k fn hcontra hfn) ▸ hk'')
        rw [huntouched fn hnofn, ← hv]
        simp [fsUpdate]
      · rw [if_neg hk] at hv
        exact hround k' v hv
    · intro p hp
      have hrest : ∀ k' ∈ rest.map Prod.fst, lookupA m k' ≠ some p :=
        fun k' hk' => hp k' (List.mem_cons_of_mem _ hk')
      rw [huntouched p hrest]
      have hkp : fn ≠ p := by
        intro hcontra
        exact hp k (by rw [List.map_cons]; exact List.mem_cons_self _ _) (hcontra ▸ hfn)
      simp [fsUpdate, Ne.symm hkp]

theorem saveSplit_ok_build {β : Type} (sd : List (Name × β))
    (m : List (Name × Name)) (fs : Name → Option β)
    (h : saveSplit sd = .ok (m, fs)) :
    buildKeyToFilename (sd.map Prod.fst) 0 = .ok m := by
  unfold saveSplit at h
  cases hb : buildKeyToFilename (sd.map Prod.fst) 0 with
  | error e => rw [hb] at h; exact absurd h (by simp)
  | ok m' =>
    rw [hb] at h
    dsimp only at h
    cases hw : writeTensors m' sd (fun _ => none) with
    | error e => rw [hw] at h; exact absurd h (by simp)
    | ok fs' =>
      rw [hw] at h
      dsimp only at h
      simp only [Except.ok.injEq, Prod.mk.injEq] at h
      rw [h.1]

/-- C3. Round-trip: for a state dict with distinct names that all sanitize
successfully, `save_split` succeeds, its manifest has exactly the original
names as keys, and reading each manifest-referenced file out of the written
directory returns exactly the original tensor for that name. -/
theorem save_split_round_trip {β : Type} (sd : List (Name × β))
    (hnd : (sd.map Prod.fst).Nodup)
    (hok : ∀ k ∈ sd.map Prod.fst, exceptOk (sanitize_file_name k) = true) :
    ∃ m fs, saveSplit sd = .ok (m, fs) ∧
      m.map Prod.fst = sd.map Prod.fst ∧
      (∀ k v, lookupA sd k = some v → ∃ fn, lookupA m k = some fn ∧ fs fn = some v) ∧
      (∀ k, lookupA sd k = none → lookupA m k = none) := by
  obtain ⟨m, hm⟩ := (buildKeyToFilename_ok_iff (sd.map Prod.fst) 0).mpr
    (fun k hk => (exceptOk_iff _).mp (hok k hk))
  have hkeys := buildKeyToFilename_keys _ _ _ hm
  have hndsnd := buildKeyToFilename_nodup _ _ _ hm
  have hinj : ∀ k1 k2 f, lookupA m k1 = some f → lookupA m k2 = some f → k1 = k2 := by
    intro k1 k2 f h1 h2
    exact mem_snd_nodup_inj m hndsnd k1 k2 f (lookupA_mem _ _ _ h1) (lookupA_mem _ _ _ h2)
  have hcov : ∀ k ∈ sd.map Prod.fst, ∃ fn, lookupA m k = some fn := by
    intro k hk
    exact lookupA_isSome_of_mem m k (by rw [hkeys]; exact hk)
  obtain ⟨fs, hw, hround, _⟩ := writeTensors_correct m sd (fun _ => none) hnd hcov hinj
  refine ⟨m, fs, ?_, hkeys, hround, ?_⟩
  · simp only [saveSplit, hm, hw]
  · intro k hk
    rw [lookupA_eq_none_iff] at hk ⊢
    rw [hkeys]
    exact hk

/-- Two names both containing a space and punctuation outside
`[-\w.]` ("my weight#1", an accented "läyer.bias "), for the C3 witness. -/
def sdWitness : List (Name × Nat) :=
  [("my weight#1".data, 7), ("läyer.bias ".data, 9)]

/-- Witness for C3: the hypotheses hold for `sdWitness` and the round-trip
conclusion follows by the theorem. -/
theorem save_split_round_trip_witness :
    ((sdWitness.map Prod.fst).Nodup ∧
      ∀ k ∈ sdWitness.map Prod.fst, exceptOk (sanitize_file_name k) = true) ∧
    (∃ m fs, saveSplit sdWitness = .ok (m, fs) ∧
      m.map Prod.fst = sdWitness.map Prod.fst ∧
      (∀ k v, lookupA sdWitness k = some v → ∃ fn, lookupA m k = some fn ∧ fs fn = some v) ∧
      (∀ k, lookupA sdWitness k = none → lookupA m k = none)) :=
  ⟨⟨by decide, by decide⟩, save_split_round_trip sdWitness (by decide) (by decide)⟩

/-- C4. `sanitize_file_name` returns exactly the trim/underscore/delete
pipeline result of the spec, and raises if and only if that result is
`""`, `"."` or `".."`; every successful return is outside that set. -/
theorem sanitize_file_name_spec_correct (name : Name) :
    (∀ r, sanitize_file_name name = .ok r → r = sanitizeSpec name ∧ r ∉ badSanitized) ∧
    ((∃ e, sanitize_file_name name = .error e) ↔ sanitizeSpec name ∈ badSanitized) := by
  have hpipe : sanitize_file_name name =
      (if sanitizeSpec name = [] ∨ sanitizeSpec name = ['.'] ∨ sanitizeSpec name = ['.', '.']
        then .error "Could not sanitize to file name."
        else .ok (sanitizeSpec name)) := rfl
  rw [hpipe]
  by_cases hc : sanitizeSpec name = [] ∨ sanitizeSpec name = ['.'] ∨ sanitizeSpec name = ['.', '.']
  · rw [if_pos hc]
    constructor
    · intro r hr
      exact absurd hr (by simp)
    · constructor
      · intro _
        simpa [badSanitized] using hc
      · intro _
        exact ⟨_, rfl⟩
  · rw [if_neg hc]
    constructor
    · intro r hr
      simp only [Except.ok.injEq] at hr
      subst hr
      refine ⟨rfl, fun hmem => hc ?_⟩
      simpa [badSanitized] using hmem
    · constructor
      · rintro ⟨e, he⟩
        exact absurd he (by simp)
      · intro hmem
        exact absurd (by simpa [badSanitized] using hmem) hc

/-- Witness for C4 at the concrete name `" my file?.txt"`: the sanitizer
succeeds, its output is the pipeline result and is not a rejected name. -/
theorem sanitize_file_name_spec_correct_witness :
    sanitize_file_name " my file?.txt".data = .ok "my_file.txt".data ∧
    "my_file.txt".data = sanitizeSpec " my file?.txt".data ∧
    "my_file.txt".data ∉ badSanitized := by
  have h := (sanitize_file_name_spec_correct " my file?.txt".data).1 "my_file.txt".data (by rfl)
  exact ⟨by rfl, h.1, h.2⟩

/-- Positional form of the manifest entries: entry `i` (zero-based) is the
input key at position `i` paired with `fileChars (idx + i) s` where `s` is
its sanitized body. -/
theorem buildKeyToFilename_get (ks : List Name) (idx : Nat)
    (m : List (Name × Name)) (h : buildKeyToFilename ks idx = .ok m) :
    ∀ (i : Nat) (hi : i < m.length), ∃ s,
      sanitize_file_name (m.get ⟨i, hi⟩).1 = .ok s ∧
      (m.get ⟨i, hi⟩).2 = fileChars (idx + i) s := by
  induction ks generalizing idx m with
  | nil =>
    simp [buildKeyToFilename] at h
    subst h
    intro i hi
    exact absurd hi (by simp)
  | cons k ks ih =>
    simp only [buildKeyToFilename] at h
    cases hs : sanitize_file_name k with
    | error e => rw [hs] at h; exact absurd h (by simp)
    | ok r =>
      rw [hs] at h
      cases hrest : buildKeyToFilename ks (idx + 1) with
      | error e => rw [hrest] at h; exact absurd h (by simp)
      | ok rest =>
        rw [hrest] at h
        simp only [Except.ok.injEq] at h
        subst h
        intro i hi
        cases i with
        | zero => exact ⟨r, hs, by simp⟩
        | succ i =>
          obtain ⟨s, hs', hf⟩ := ih (idx + 1) rest hrest i (by simpa using hi)
          have harith : idx + 1 + i = idx + (i + 1) := by omega
          exact ⟨s, hs', by simpa [harith] using hf⟩

/-- C5. In a manifest produced by `save_split`, any two enumeration
positions carry distinct file names, and position `i` carries the file
name `p<i>.<sanitized body>`; uniqueness holds even when the sanitized
bodies of two names coincide. -/
theorem save_split_filenames_unique {β : Type} (sd : List (Name × β))
    (m : List (Name × Name)) (fs : Name → Option β)
    (h : saveSplit sd = .ok (m, fs)) :
    (m.map Prod.snd).Nodup ∧
    ∀ (i : Nat) (hi : i < m.length), ∃ s,
      sanitize_file_name (m.get ⟨i, hi⟩).1 = .ok s ∧
      (m.get ⟨i, hi⟩).2 = fileChars i s := by
  have hb := saveSplit_ok_build sd m fs h
  refine ⟨buildKeyToFilename_nodup _ _ _ hb, fun i hi => ?_⟩
  obtain ⟨s, hs, hf⟩ := buildKeyToFilename_get _ _ _ hb i hi
  exact ⟨s, hs, by simpa using hf⟩

/-- Two parameter names whose sanitized bodies collide (`"a b"` and
`"a_b"` both sanitize to `"a_b"`), for the C5 witness. -/
def sd5W : List (Name × Nat) := [("a b".data, 0), ("a_b".data, 1)]

/-- The manifest `save_split` assigns to `sd5W`. -/
def m5W : List (Name × Name) := [("a b".data, "p0.a_b".data), ("a_b".data, "p1.a_b".data)]

/-- The directory contents `save_split` writes for `sd5W`. -/
def fs5W : Name → Option Nat :=
  fsUpdate (fsUpdate (fun _ => none) "p0.a_b".data 0) "p1.a_b".data 1

/-- Witness for C5: on two names with the same sanitized body, the assigned
file names differ thanks to the index prefix. -/
theorem save_split_filenames_unique_witness :
    saveSplit sd5W = .ok (m5W, fs5W) ∧
    ((m5W.map Prod.snd).Nodup ∧
      ∀ (i : Nat) (hi : i < m5W.length), ∃ s,
        sanitize_file_name (m5W.get ⟨i, hi⟩).1 = .ok s ∧
        (m5W.get ⟨i, hi⟩).2 = fileChars i s) :=
  ⟨rfl, save_split_filenames_unique sd5W m5W fs5W rfl⟩

/-- C6. Saving is all-or-nothing under sanitization failure: if any key of
the state dict fails to sanitize, `save_split` raises before writing the
manifest or any tensor file (it produces no directory contents at all). -/
theorem save_split_all_or_nothing {β : Type} (sd : List (Name × β)) (k : Name)
    (hk : k ∈ sd.map Prod.fst)
    (hbad : exceptOk (sanitize_file_name k) = false) :
    ∃ e, saveSplit sd = .error e := by
  cases hb : buildKeyToFilename (sd.map Prod.fst) 0 with
  | error e =>
    refine ⟨e, ?_⟩
    unfold saveSplit
    rw [hb]
  | ok m =>
    obtain ⟨r, hr⟩ := (buildKeyToFilename_ok_iff _ 0).mp ⟨m, hb⟩ k hk
    rw [hr] at hbad
    simp [exceptOk] at hbad

/-- A state dict whose second key sanitizes to the empty string. -/
def sd6W : List (Name × Nat) := [("ok name".data, 0), ("???".data, 1)]

/-- Witness for C6: with `"???"` among the keys, the whole save fails. -/
theorem save_split_all_or_nothing_witness :
    ("???".data ∈ sd6W.map Prod.fst ∧
      exceptOk (sanitize_file_name "???".data) = false) ∧
    ∃ e, saveSplit sd6W = .error e :=
  ⟨⟨by decide, by rfl⟩, save_split_all_or_nothing sd6W "???".data (by decide) (by rfl)⟩

/-! ### Materializer: `LowMemoryModule.materialize` -/

/-- Tensors, abstracted to what the materializer observes: a shape and an
opaque data tag (values, dtype and layout live in the external tensor
library). -/
structure Tensor where
  shape : List Nat
  data : Int
  deriving DecidableEq

/-- The contents of an `.empty_json` side file:
`{"shape": [...], "torch_dtype": "...", "init_std": ...}`. -/
structure EmptySpec where
  shape : List Nat
  torch_dtype : String
  init_std : Int
  deriving DecidableEq

/-- A file on disk, as the materializer can interpret it: a serialized
tensor, or a JSON side file (`none` models JSON that fails to parse into
an empty-spec record). -/
inductive FileData where
  | tensorFile (t : Tensor)
  | jsonFile (spec : Option EmptySpec)
  deriving DecidableEq

/-- Backing state of a parameter: an uninitialized lazy placeholder
(`torch.nn.parameter.is_lazy`) or real backing data. -/
inductive PState where
  | uninit
  | backed (t : Tensor)
  deriving DecidableEq

/-- A parameter as `materialize` sees it: the optional `_file_path`
annotation (absent attribute modelled as `none`) and the backing state. -/
structure Param where
  file_path : Option Name
  state : PState
  deriving DecidableEq

inductive MatErr where
  | missingFile
  | formatErr
  | loadErr
  | copyMismatch
  deriving DecidableEq

/-- Whether a path ends with the given suffix (`str.endswith`). -/
def listEndsWith (p sfx : Name) : Bool :=
  decide (sfx.length ≤ p.length) && (p.drop (p.length - sfx.length) == sfx)

def emptyJsonSuffix : Name := ".empty_json".data

/-- `param.materialize(input_param.shape)` (when lazy) followed by
`param.copy_(input_param)`: a lazy placeholder is first allocated at the
input's shape, so the copy succeeds; copying into an already-backed
parameter of a different shape raises. -/
def copyInto (st : PState) (input : Tensor) : Except MatErr PState :=
  match st with
  | .uninit => .ok (.backed input)
  | .backed t0 =>
    if t0.shape = input.shape then .ok (.backed input) else .error .copyMismatch

/-- One iteration of the `materialize` loop body. A parameter without the
`_file_path` attribute is skipped. Otherwise: an `.empty_json` path is
opened and parsed (missing file and unparsable contents raise), and the
input tensor is `init_std * randn(shape)` cast to the declared dtype;
any other path goes through `torch.load` (missing file raises; a file
that is not a serialized tensor raises). The input is then copied into
the parameter. Note the `_file_path` annotation is NOT removed: the loop
body has no `del`. Returns the updated parameter and the number of file
reads performed. -/
def resolveOne (fs : Name → Option FileData) (randn : List Nat → Int) (p : Param) :
    Except MatErr (Param × Nat) :=
  match p.file_path with
  | none => .ok (p, 0)
  | some path =>
    if listEndsWith path emptyJsonSuffix then
      match fs path with
      | none => .error .missingFile
      | some (.jsonFile none) => .error .formatErr
      | some (.jsonFile (some spec)) =>
        match copyInto p.state { shape := spec.shape, data := spec.init_std * randn spec.shape } with
        | .error e => .error e
        | .ok st => .ok ({ p with state := st }, 1)
      | some (.tensorFile _) => .error .formatErr
    else
      match fs path with
      | none => .error .missingFile
      | some (.tensorFile t) =>
        match copyInto p.state t with
        | .error e => .error e
        | .ok st => .ok ({ p with state := st }, 1)
      | some (.jsonFile _) => .error .loadErr

/-- `LowMemoryModule.materialize`: the plain `for param in self.parameters()`
loop. An exception raised while resolving one parameter propagates out of
the loop: the failing parameter and every later one are left untouched.
Returns the parameters, the total number of file reads, and the raised
error if any. -/
def materializeParams (fs : Name → Option FileData) (randn : List Nat → Int) :
    List Param → (List Param × Nat × Option MatErr)
  | [] => ([], 0, none)
  | p :: ps =>
    match resolveOne fs randn p with
    | .error e => (p :: ps, 0, some e)
    | .ok (p', r) =>
      let rest := materializeParams fs randn ps
      (p' :: rest.1, r + rest.2.1, rest.2.2)

theorem copyInto_ok (st : PState) (input : Tensor) (st' : PState)
    (h : copyInto st input = .ok st') : st' = .backed input := by
  cases st with
  | uninit => simpa [copyInto] using h.symm
  | backed t0 =>
    simp only [copyInto] at h
    by_cases hsh : t0.shape = input.shape
    · rw [if_pos hsh] at h
      simpa using h.symm
    · rw [if_neg hsh] at h
      exact absurd h (by simp)

/-- A successful `resolveOne` keeps the `_file_path` annotation and, run
again on its own output, performs exactly the same reads again and
succeeds. -/
theorem resolveOne_ok_again (fs : Name → Option FileData) (randn : List Nat → Int)
    (p p' : Param) (r : Nat) (h : resolveOne fs randn p = .ok (p', r)) :
    p'.file_path = p.file_path ∧ ∃ p'', resolveOne fs randn p' = .ok (p'', r) := by
  unfold resolveOne at h
  cases hfp : p.file_path with
  | none =>
    rw [hfp] at h
    simp only [Except.ok.injEq, Prod.mk.injEq] at h
    rw [← h.1]
    exact ⟨hfp ▸ rfl, p', by unfold resolveOne; rw [← h.1, hfp, ← h.2]⟩
  | some path =>
    rw [hfp] at h
    dsimp only at h
    by_cases hej : listEndsWith path emptyJsonSuffix = true
    · rw [if_pos hej] at h
      cases hfd : fs path with
      | none => rw [hfd] at h; exact absurd h (by simp)
      | some fd =>
        rw [hfd] at h
        cases fd with
        | jsonFile spec =>
          cases spec with
          | none => exact absurd h (by simp)
          | some spec =>
            dsimp only at h
            cases hcp : copyInto p.state { shape := spec.shape, data := spec.init_std * randn spec.shape } with
            | error e => rw [hcp] at h; exact absurd h (by simp)
            | ok st =>
              rw [hcp] at h
              simp only [Except.ok.injEq, Prod.mk.injEq] at h
              have hst := copyInto_ok _ _ _ hcp
              constructor
              · rw [← h.1]
              · refine ⟨{ p' with state := .backed { shape := spec.shape, data := spec.init_std * randn spec.shape } }, ?_⟩
                unfold resolveOne
                rw [← h.1]
                simp only
                rw [if_pos hej, hfd]
                dsimp only
                rw [hst]
                simp [copyInto, ← h.2]
        | tensorFile t => exact absurd h (by simp)
    · rw [if_neg hej] at h
      cases hfd : fs path with
      | none => rw [hfd] at h; exact absurd h (by simp)
      | some fd =>
        rw [hfd] at h
        cases fd with
        | tensorFile t =>
          dsimp only at h
          cases hcp : copyInto p.state t with
          | error e => rw [hcp] at h; exact absurd h (by simp)
          | ok st =>
            rw [hcp] at h
            simp only [Except.ok.injEq, Prod.mk.injEq] at h
            have hst := copyInto_ok _ _ _ hcp
            constructor
            · rw [← h.1]
            · refine ⟨{ p' with state := .backed t }, ?_⟩
              unfold resolveOne
              rw [← h.1]
              simp only
              rw [if_neg hej, hfd]
              dsimp only
              rw [hst]
              simp [copyInto, ← h.2]
        | jsonFile spec => exact absurd h (by simp)

/-- C1 (amended). A successful `materialize` call retains every
`_file_path` annotation (the loop has no `del`), so an immediate second
call re-resolves every annotated parameter: it performs exactly the same
number of file reads again (and succeeds) instead of being a no-op. -/
theorem materialize_annotations_retained (fs : Name → Option FileData) (randn : List Nat → Int) :
    ∀ (ps ps' : List Param) (r : Nat),
      materializeParams fs randn ps = (ps', r, none) →
      ps'.map Param.file_path = ps.map Param.file_path ∧
      (materializeParams fs randn ps').2.1 = r ∧
      (materializeParams fs randn ps').2.2 = none := by
  intro ps
  induction ps with
  | nil =>
    intro ps' r h
    simp only [materializeParams, Prod.mk.injEq] at h
    obtain ⟨h1, h2, _⟩ := h
    subst h1; subst h2
    simp [materializeParams]
  | cons p ps ih =>
    intro ps' r h
    simp only [materializeParams] at h
    cases hres : resolveOne fs randn p with
    | error e => rw [hres] at h; simp at h
    | ok pr =>
      obtain ⟨p', rp⟩ := pr
      rw [hres] at h
      dsimp only at h
      rcases hrest : materializeParams fs randn ps with ⟨a, b, c⟩
      rw [hrest] at h
      simp only [Prod.mk.injEq] at h
      obtain ⟨h1, h2, h3⟩ := h
      subst h3
      subst h1
      subst h2
      obtain ⟨hfpeq, p'', hp''⟩ := resolveOne_ok_again fs randn p p' rp hres
      have hih := ih a b hrest
      refine ⟨?_, ?_, ?_⟩
      · simp only [List.map_cons, hfpeq, hih.1]
      · simp only [materializeParams, hp'']
        rw [hih.2.1]
      · simp only [materializeParams, hp'']
        exact hih.2.2

/-- Deterministic stand-in for the external random number generator. -/
def randn0 : List Nat → Int := fun _ => 0

def t1W : Tensor := { shape := [2], data := 5 }

/-- A file-deferred, lazily uninitialized parameter. -/
def p1W : Param := { file_path := some "p0.weight".data, state := .uninit }

/-- `p1W` after its tensor has been copied in; note the annotation is
still present. -/
def p1Wres : Param := { file_path := some "p0.weight".data, state := .backed t1W }

/-- A directory holding only `p0.weight`. -/
def fs1W : Name → Option FileData :=
  fun q => if q = "p0.weight".data then some (.tensorFile t1W) else none

/-- Counterexample to C1 as stated: after `materialize` resolves `p1W`,
the deferred-source annotation is NOT discarded, and calling `materialize`
again performs a file read (it is not a no-op). -/
theorem materialize_discard_cex :
    (materializeParams fs1W randn0 [p1W]).1 = [p1Wres] ∧
    (materializeParams fs1W randn0 [p1W]).1.map Param.file_path ≠ [none] ∧
    (materializeParams fs1W randn0 [p1Wres]).2.1 ≠ 0 := by decide

/-- Witness for the amended C1 on `p1W`: the first call succeeds with one
read, annotations are retained, and the second call reads once more and
succeeds. -/
theorem materialize_annotations_retained_witness :
    materializeParams fs1W randn0 [p1W] = ([p1Wres], 1, none) ∧
    ([p1Wres].map Param.file_path = [p1W].map Param.file_path ∧
      (materializeParams fs1W randn0 [p1Wres]).2.1 = 1 ∧
      (materializeParams fs1W randn0 [p1Wres]).2.2 = none) :=
  ⟨by decide, materialize_annotations_retained fs1W randn0 [p1W] [p1Wres] 1 (by decide)⟩

/-- C2 (amended). A resolution failure aborts the whole `materialize`
call at the failing parameter: parameters before it in traversal order
are resolved, the failing parameter and every later one are left
untouched. -/
theorem materialize_aborts_at_failure (fs : Name → Option FileData) (randn : List Nat → Int) :
    ∀ (ps1 ps1' : List Param) (r : Nat) (p : Param) (ps2 : List Param) (e : MatErr),
      materializeParams fs randn ps1 = (ps1', r, none) →
      resolveOne fs randn p = .error e →
      materializeParams fs randn (ps1 ++ p :: ps2) = (ps1' ++ p :: ps2, r, some e) := by
  intro ps1
  induction ps1 with
  | nil =>
    intro ps1' r p ps2 e h1 h2
    simp only [materializeParams, Prod.mk.injEq] at h1
    obtain ⟨ha, hb, _⟩ := h1
    subst ha; subst hb
    simp only [List.nil_append, materializeParams, h2]
  | cons q ps1 ih =>
    intro ps1' r p ps2 e h1 h2
    simp only [materializeParams] at h1
    cases hres : resolveOne fs randn q with
    | error e' => rw [hres] at h1; simp at h1
    | ok pr =>
      obtain ⟨q', rq⟩ := pr
      rw [hres] at h1
      dsimp only at h1
      rcases hrest : materializeParams fs randn ps1 with ⟨a, b, c⟩
      rw [hrest] at h1
      simp only [Prod.mk.injEq] at h1
      obtain ⟨ha, hb, hc⟩ := h1
      subst hc
      subst ha
      subst hb
      have hih := ih a b p ps2 e hrest h2
      simp only [List.cons_append, materializeParams, hres]
      simp only [List.append_eq]
      rw [hih]

/-- A file-deferred parameter whose file is absent from `fs1W`. -/
def p2missW : Param := { file_path := some "missing.bin".data, state := .uninit }

/-- Counterexample to C2 as stated: with the failing parameter first, the
sibling `p1W` — which is individually resolvable — is NOT resolved by the
same `materialize` call (the exception aborts the loop). -/
theorem materialize_confinement_cex :
    materializeParams fs1W randn0 [p2missW, p1W] = ([p2missW, p1W], 0, some .missingFile) ∧
    exceptOk (resolveOne fs1W randn0 p1W) = true ∧
    p1W.state = .uninit := by decide

/-- Witness for the amended C2: `p1W` (before the failing parameter) is
resolved, `p2missW` fails, and the call aborts there. -/
theorem materialize_aborts_at_failure_witness :
    (materializeParams fs1W randn0 [p1W] = ([p1Wres], 1, none) ∧
      resolveOne fs1W randn0 p2missW = .error .missingFile) ∧
    materializeParams fs1W randn0 ([p1W] ++ p2missW :: []) = ([p1Wres] ++ p2missW :: [], 1, some .missingFile) :=
  ⟨⟨by decide, by rfl⟩,
    materialize_aborts_at_failure fs1W randn0 [p1W] [p1Wres] 1 p2missW [] .missingFile (by decide) (by rfl)⟩

/-! ### Greedy decoder: `SamplingModel.greedy_search`

A score is an extended integer: `some v` is a finite logit, `none` is
`-inf` (the value written over the EOS logit). The model is abstracted as
a state-threading forward function `(state, token_ids, position_ids) ↦
(state, next_token_scores)`; `model.reset()` is modelled by starting from
the supplied reset state. Batch size is one (a single row of scores). -/

abbrev Score := Option Int

/-- Strict order on scores with `none` as `-inf`: `-inf` is below every
finite value and not below itself. -/
def scoreLt : Score → Score → Bool
  | none, some _ => true
  | none, none => false
  | some _, none => false
  | some a, some b => decide (a < b)

/-- `next_token_scores[:, eos_token_id] = -float('inf')`. -/
def setEosNegInf (scores : List Score) (eos : Nat) : List Score :=
  scores.set eos none

def argmaxAux : List Score → Nat → Nat → Score → Nat
  | [], _, bi, _ => bi
  | a :: l, i, bi, bv =>
    if scoreLt bv a then argmaxAux l (i + 1) i a else argmaxAux l (i + 1) bi bv

/-- `torch.argmax` over one score row: the index of the maximum, first
occurrence on ties (strictly greater values displace the running best). -/
def argmaxFirst : List Score → Nat
  | [] => 0
  | a :: l => argmaxAux l 1 0 a

/-- The `for cur_len in range(start, sequence_length)` loop of
`greedy_search`: suppress the EOS logit, take the arg-max, append it, and
run one forward pass on that single token at position `cur_len`. -/
def greedyLoop {σ : Type} (forward : σ → List Nat → List Nat → σ × List Score)
    (eos : Nat) : Nat → σ → List Score → Nat → List Nat
  | 0, _, _, _ => []
  | n + 1, st, scores, curLen =>
    let maxIndex := argmaxFirst (setEosNegInf scores eos)
    let next := forward st [maxIndex] [curLen]
    maxIndex :: greedyLoop forward eos n next.1 next.2 (curLen + 1)

/-- `SamplingModel.greedy_search(model, input_ids, sequence_length,
eos_token_id)`: reset the model, run one forward pass over the whole
prompt with positions `arange(start)`, then generate
`sequence_length - start` tokens, returning prompt ++ generated. -/
def greedy_search {σ : Type} (forward : σ → List Nat → List Nat → σ × List Score)
    (resetState : σ) (input_ids : List Nat) (sequence_length eos_token_id : Nat) :
    List Nat :=
  let start := input_ids.length
  let first := forward resetState input_ids (List.range start)
  input_ids ++ greedyLoop forward eos_token_id (sequence_length - start) first.1 first.2 start

/-- Spec-side reference trace: model state, score row and absolute
position just before generation step `i`. -/
def decodeTrace {σ : Type} (forward : σ → List Nat → List Nat → σ × List Score)
    (eos : Nat) (st : σ) (scores : List Score) (curLen : Nat) : Nat → σ × List Score × Nat
  | 0 => (st, scores, curLen)
  | i + 1 =>
    let prev := decodeTrace forward eos st scores curLen i
    let tok := argmaxFirst (setEosNegInf prev.2.1 eos)
    let nx := forward prev.1 [tok] [prev.2.2]
    (nx.1, nx.2, prev.2.2 + 1)

theorem decodeTrace_shift {σ : Type} (forward : σ → List Nat → List Nat → σ × List Score)
    (eos : Nat) (st : σ) (scores : List Score) (curLen : Nat) :
    ∀ i : Nat, decodeTrace forward eos st scores curLen (i + 1) =
      decodeTrace forward eos
        (forward st [argmaxFirst (setEosNegInf scores eos)] [curLen]).1
        (forward st [argmaxFirst (setEosNegInf scores eos)] [curLen]).2
        (curLen + 1) i := by
  intro i
  induction i with
  | zero => rfl
  | succ i ih =>
    show (let prev := decodeTrace forward eos st scores curLen (i + 1);
      let tok := argmaxFirst (setEosNegInf prev.2.1 eos);
      let nx := forward prev.1 [tok] [prev.2.2]
      (nx.1, nx.2, prev.2.2 + 1)) = _
    rw [ih]
    rfl

theorem greedyLoop_trace {σ : Type} (forward : σ → List Nat → List Nat → σ × List Score)
    (eos : Nat) :
    ∀ (n : Nat) (st : σ) (scores : List Score) (curLen : Nat),
      (greedyLoop forward eos n st scores curLen).length = n ∧
      ∀ (i : Nat) (hi : i < (greedyLoop forward eos n st scores curLen).length),
        (greedyLoop forward eos n st scores curLen).get ⟨i, hi⟩ =
          argmaxFirst (setEosNegInf (decodeTrace forward eos st scores curLen i).2.1 eos) := by
  intro n
  induction n with
  | zero =>
    intro st scores curLen
    exact ⟨rfl, fun i hi => absurd hi (by simp [greedyLoop])⟩
  | succ n ih =>
    intro st scores curLen
    constructor
    · simp only [greedyLoop, List.length_cons]
      exact congrArg Nat.succ (ih _ _ _).1
    · intro i hi
      cases i with
      | zero => rfl
      | succ i =>
        have hi' : i < (greedyLoop forward eos n
            (forward st [argmaxFirst (setEosNegInf scores eos)] [curLen]).1
            (forward st [argmaxFirst (setEosNegInf scores eos)] [curLen]).2
            (curLen + 1)).length := by
          have := (ih (forward st [argmaxFirst (setEosNegInf scores eos)] [curLen]).1
            (forward st [argmaxFirst (setEosNegInf scores eos)] [curLen]).2 (curLen + 1)).1
          simp only [greedyLoop, List.length_cons] at hi
          omega
        have hrec := (ih (forward st [argmaxFirst (setEosNegInf scores eos)] [curLen]).1
          (forward st [argmaxFirst (setEosNegInf scores eos)] [curLen]).2 (curLen + 1)).2 i hi'
        rw [decodeTrace_shift]
        exact hrec

/-- C9. `greedy_search` returns the prompt followed by exactly
`sequence_length - prompt_length` generated tokens, each the arg-max of
the current score row after the EOS logit is forced to `-inf`, per the
reference trace `decodeTrace`. -/
theorem greedy_search_correct {σ : Type} (forward : σ → List Nat → List Nat → σ × List Score)
    (resetState : σ) (input_ids : List Nat) (sequence_length eos : Nat)
    (h : input_ids.length ≤ sequence_length) :
    ∃ gen : List Nat,
      greedy_search forward resetState input_ids sequence_length eos = input_ids ++ gen ∧
      gen.length = sequence_length - input_ids.length ∧
      ∀ (i : Nat) (hi : i < gen.length),
        gen.get ⟨i, hi⟩ = argmaxFirst (setEosNegInf
          (decodeTrace forward eos
            (forward resetState input_ids (List.range input_ids.length)).1
            (forward resetState input_ids (List.range input_ids.length)).2
            input_ids.length i).2.1 eos) := by
  refine ⟨greedyLoop forward eos (sequence_length - input_ids.length)
    (forward resetState input_ids (List.range input_ids.length)).1
    (forward resetState input_ids (List.range input_ids.length)).2
    input_ids.length, rfl, ?_, ?_⟩
  · exact (greedyLoop_trace forward eos _ _ _ _).1
  · intro i hi
    exact (greedyLoop_trace forward eos _ _ _ _).2 i hi

/-- The stub model's fixed score row: single maximum at index 5, distinct
from the EOS index 2. -/
def scoresW : List Score :=
  [some 0, some 1, some 4, some 0, some 0, some 9, some 2]

/-- A stateless stub model whose forward pass always returns `scoresW`. -/
def forwardW : Unit → List Nat → List Nat → Unit × List Score :=
  fun _ _ _ => ((), scoresW)

/-- Witness for C9: on the stub model with prompt `[1, 4]` and
`sequence_length = 2 + 3`, the result is the prompt followed by exactly
`[5, 5, 5]`. -/
theorem greedy_search_correct_witness :
    ([1, 4] : List Nat).length ≤ 5 ∧
    (∃ gen : List Nat,
      greedy_search forwardW () [1, 4] 5 2 = [1, 4] ++ gen ∧
      gen.length = 5 - ([1, 4] : List Nat).length ∧
      ∀ (i : Nat) (hi : i < gen.length),
        gen.get ⟨i, hi⟩ = argmaxFirst (setEosNegInf
          (decodeTrace forwardW 2
            (forwardW () [1, 4] (List.range ([1, 4] : List Nat).length)).1
            (forwardW () [1, 4] (List.range ([1, 4] : List Nat).length)).2
            ([1, 4] : List Nat).length i).2.1 2)) ∧
    greedy_search forwardW () [1, 4] 5 2 = [1, 4, 5, 5, 5] :=
  ⟨by decide, greedy_search_correct forwardW () [1, 4] 5 2 (by decide), by decide⟩

/-! ### Load paths: `_load_from_state_dict_dir` and
`_load_from_state_dict_low_memory`

Both functions iterate `local_state`, the module's `named_parameters()`
(relative qualified name → parameter), and join each name with the
running `prefix`. Qualified names of a `named_parameters` listing are
unique, and a Python dict has unique keys; theorems take these as
`Nodup` hypotheses where needed. -/

/-- `_load_from_state_dict_dir`: for each parameter whose
`prefix + name` is a manifest key, attach
`_file_path = os.path.join(state_dict_dir, key_to_filename[key])`;
parameters with absent keys are left untouched, and nothing raises. -/
def loadFromStateDictDir (key_to_filename : List (Name × Name)) (state_dict_dir pfx : Name) :
    List (Name × Param) → List (Name × Param)
  | [] => []
  | (n, p) :: rest =>
    match lookupA key_to_filename (pfx ++ n) with
    | some fn =>
      (n, { p with file_path := some (state_dict_dir ++ '/' :: fn) }) ::
        loadFromStateDictDir key_to_filename state_dict_dir pfx rest
    | none => (n, p) :: loadFromStateDictDir key_to_filename state_dict_dir pfx rest

/-- Remove the entry with the given key (`dict.pop`); keys are unique in
a Python dict, so removing the first occurrence is exact. -/
def removeA {β : Type} : List (Name × β) → Name → List (Name × β)
  | [], _ => []
  | (k, v) :: rest, q => if q = k then rest else (k, v) :: removeA rest q

/-- Whether some entry of `local_state` is assigned the key `k`. -/
def keyApplied (pfx : Name) (ls : List (Name × Param)) (k : Name) : Bool :=
  ls.any (fun np => decide (pfx ++ np.1 = k))

/-- `_load_from_state_dict_low_memory`: for each (name, param) in order,
if `prefix + name` is a key of `state_dict`, the key is popped from the
dict FIRST (`input_param = state_dict.pop(key)`) and the tensor is then
copied in (materializing a lazy placeholder at the input's shape). A
failing `copy_` raises: the loop aborts with every earlier pop retained
and the current parameter left with its previous contents. -/
def loadLowMemory (pfx : Name) :
    List (Name × Param) → List (Name × Tensor) →
      List (Name × Param) × List (Name × Tensor) × Option MatErr
  | [], sd => ([], sd, none)
  | (n, p) :: rest, sd =>
    match lookupA sd (pfx ++ n) with
    | none =>
      let r := loadLowMemory pfx rest sd
      ((n, p) :: r.1, r.2.1, r.2.2)
    | some input =>
      let sd' := removeA sd (pfx ++ n)
      match copyInto p.state input with
      | .error e => ((n, p) :: rest, sd', some e)
      | .ok st =>
        let r := loadLowMemory pfx rest sd'
        ((n, { p with state := st }) :: r.1, r.2.1, r.2.2)

theorem removeA_eq_filter {β : Type} :
    ∀ (sd : List (Name × β)) (q : Name), (sd.map Prod.fst).Nodup →
      removeA sd q = sd.filter (fun kv => !decide (kv.1 = q)) := by
  intro sd
  induction sd with
  | nil => intro q _; rfl
  | cons e rest ih =>
    obtain ⟨k, v⟩ := e
    intro q hnd
    simp only [List.map_cons, List.nodup_cons] at hnd
    simp only [removeA]
    by_cases hq : q = k
    · rw [if_pos hq]
      subst hq
      rw [List.filter_cons]
      have hall : ∀ kv ∈ rest, (!decide (kv.1 = q)) = true := by
        intro kv hkv
        simp only [Bool.not_eq_true', decide_eq_false_iff_not]
        intro hcontra
        exact hnd.1 (hcontra ▸ List.mem_map.mpr ⟨kv, hkv, rfl⟩)
      rw [List.filter_eq_self.mpr hall]
      simp
    · rw [if_neg hq]
      rw [List.filter_cons]
      have hne : (!decide ((k, v).1 = q)) = true := by
        simp only [Bool.not_eq_true', decide_eq_false_iff_not]
        exact fun hc => hq hc.symm
      rw [if_pos (by simp at hne ⊢; exact hne)]
      rw [ih q hnd.2]

theorem removeA_map_fst_sublist {β : Type} :
    ∀ (sd : List (Name × β)) (q : Name),
      ((removeA sd q).map Prod.fst).Sublist (sd.map Prod.fst) := by
  intro sd
  induction sd with
  | nil => intro q; simp [removeA]
  | cons e rest ih =>
    obtain ⟨k, v⟩ := e
    intro q
    simp only [removeA]
    by_cases hq : q = k
    · rw [if_pos hq]
      simp only [List.map_cons]
      exact List.sublist_cons_of_sublist _ (List.Sublist.refl _)
    · rw [if_neg hq]
      simp only [List.map_cons]
      exact List.Sublist.cons₂ _ (ih q)

theorem removeA_nodup {β : Type} (sd : List (Name × β)) (q : Name)
    (hnd : (sd.map Prod.fst).Nodup) : ((removeA sd q).map Prod.fst).Nodup :=
  (removeA_map_fst_sublist sd q).nodup hnd

theorem lookupA_removeA {β : Type} :
    ∀ (sd : List (Name × β)) (q k : Name), (sd.map Prod.fst).Nodup →
      lookupA (removeA sd q) k = if k = q then none else lookupA sd k := by
  intro sd
  induction sd with
  | nil =>
    intro q k _
    simp only [removeA, lookupA]
    split <;> rfl
  | cons e rest ih =>
    obtain ⟨k0, v⟩ := e
    intro q k hnd
    simp only [List.map_cons, List.nodup_cons] at hnd
    simp only [removeA]
    by_cases hq : q = k0
    · rw [if_pos hq]
      subst hq
      by_cases hk : k = q
      · rw [if_pos hk]
        subst hk
        rw [(lookupA_eq_none_iff rest k).mpr (fun hc => hnd.1 hc)]
      · rw [if_neg hk]
        simp only [lookupA, if_neg hk]
    · rw [if_neg hq]
      simp only [lookupA]
      by_cases hk : k = k0
      · rw [if_pos hk, if_pos hk]
        rw [if_neg (by rw [hk]; exact fun hc => hq hc.symm)]
      · rw [if_neg hk, if_neg hk]
        rw [ih q k hnd.2]

/-- Directory-annotation helper: names are preserved; a parameter whose
key is absent from the manifest is untouched; a present key attaches the
joined file path. Nothing raises (the function is total). -/
theorem loadFromStateDictDir_spec (ktf : List (Name × Name)) (dir pfx : Name) :
    ∀ ls : List (Name × Param),
      ((loadFromStateDictDir ktf dir pfx ls).map Prod.fst = ls.map Prod.fst) ∧
      ∀ (i : Nat) (hi : i < ls.length)
        (hi2 : i < (loadFromStateDictDir ktf dir pfx ls).length),
        (lookupA ktf (pfx ++ (ls.get ⟨i, hi⟩).1) = none →
          (loadFromStateDictDir ktf dir pfx ls).get ⟨i, hi2⟩ = ls.get ⟨i, hi⟩) ∧
        (∀ fn, lookupA ktf (pfx ++ (ls.get ⟨i, hi⟩).1) = some fn →
          (loadFromStateDictDir ktf dir pfx ls).get ⟨i, hi2⟩ =
            ((ls.get ⟨i, hi⟩).1,
              { (ls.get ⟨i, hi⟩).2 with file_path := some (dir ++ '/' :: fn) })) := by
  intro ls
  induction ls with
  | nil => exact ⟨rfl, fun i hi => absurd hi (by simp)⟩
  | cons np rest ih =>
    obtain ⟨n, p⟩ := np
    simp only [loadFromStateDictDir]
    cases hlk : lookupA ktf (pfx ++ n) with
    | some fn0 =>
      dsimp only
      refine ⟨by simp only [List.map_cons, ih.1], ?_⟩
      intro i hi hi2
      cases i with
      | zero =>
        constructor
        · intro habs
          simp only [List.get] at habs
          rw [habs] at hlk
          exact absurd hlk (by simp)
        · intro fn hfn
          simp only [List.get] at hfn ⊢
          rw [hfn] at hlk
          simp only [Option.some.injEq] at hlk
          rw [hlk]
      | succ i =>
        exact (ih.2 i (by simpa using hi) (by simpa using hi2))
    | none =>
      dsimp only
      refine ⟨by simp only [List.map_cons, ih.1], ?_⟩
      intro i hi hi2
      cases i with
      | zero =>
        constructor
        · intro _
          rfl
        · intro fn hfn
          simp only [List.get] at hfn
          rw [hfn] at hlk
          exact absurd hlk (by simp)
      | succ i =>
        exact (ih.2 i (by simpa using hi) (by simpa using hi2))

/-- Eager-load helper: when every matched copy succeeds, the loop raises
nothing, the final dict is exactly the input dict minus the applied keys,
names are preserved, and a parameter whose key is absent from the input
dict is left untouched. -/
theorem loadLowMemory_partial (pfx : Name) :
    ∀ (ls : List (Name × Param)) (sd : List (Name × Tensor)),
      (sd.map Prod.fst).Nodup →
      (∀ n p, (n, p) ∈ ls → ∀ t, lookupA sd (pfx ++ n) = some t →
        exceptOk (copyInto p.state t) = true) →
      (loadLowMemory pfx ls sd).2.2 = none ∧
      (loadLowMemory pfx ls sd).2.1 = sd.filter (fun kv => !keyApplied pfx ls kv.1) ∧
      (loadLowMemory pfx ls sd).1.map Prod.fst = ls.map Prod.fst ∧
      ∀ (i : Nat) (hi : i < ls.length) (hi2 : i < (loadLowMemory pfx ls sd).1.length),
        lookupA sd (pfx ++ (ls.get ⟨i, hi⟩).1) = none →
        (loadLowMemory pfx ls sd).1.get ⟨i, hi2⟩ = ls.get ⟨i, hi⟩ := by
  intro ls
  induction ls with
  | nil =>
    intro sd hnd hcopy
    refine ⟨rfl, ?_, rfl, fun i hi => absurd hi (by simp)⟩
    simp [loadLowMemory, keyApplied]
  | cons np rest ih =>
    obtain ⟨n, p⟩ := np
    intro sd hnd hcopy
    simp only [loadLowMemory]
    cases hlk : lookupA sd (pfx ++ n) with
    | none =>
      dsimp only
      have hihyp : ∀ n' p', (n', p') ∈ rest → ∀ t, lookupA sd (pfx ++ n') = some t →
          exceptOk (copyInto p'.state t) = true :=
        fun n' p' hmem t ht => hcopy n' p' (List.mem_cons_of_mem _ hmem) t ht
      obtain ⟨herr, hdict, hnames, huntouched⟩ := ih sd hnd hihyp
      have hkeyne : pfx ++ n ∉ sd.map Prod.fst := (lookupA_eq_none_iff sd (pfx ++ n)).mp hlk
      refine ⟨herr, ?_, by simp only [List.map_cons, hnames], ?_⟩
      · rw [hdict]
        apply List.filter_congr
        intro kv hkv
        have hne : ¬ (pfx ++ n = kv.1) := by
          intro hc
          exact hkeyne (hc ▸ List.mem_map.mpr ⟨kv, hkv, rfl⟩)
        simp [keyApplied, hne]
      · intro i hi hi2 habs
        cases i with
        | zero => rfl
        | succ i =>
          exact huntouched i (by simpa using hi) (by simpa using hi2) habs
    | some input =>
      dsimp only
      obtain ⟨st, hst⟩ := (exceptOk_iff _).mp (hcopy n p (List.mem_cons_self _ _) input hlk)
      rw [hst]
      dsimp only
      have hnd2 := removeA_nodup sd (pfx ++ n) hnd
      have hihyp : ∀ n' p', (n', p') ∈ rest → ∀ t,
          lookupA (removeA sd (pfx ++ n)) (pfx ++ n') = some t →
          exceptOk (copyInto p'.state t) = true := by
        intro n' p' hmem t ht
        rw [lookupA_removeA sd (pfx ++ n) (pfx ++ n') hnd] at ht
        by_cases hkk : pfx ++ n' = pfx ++ n
        · rw [if_pos hkk] at ht
          exact absurd ht (by simp)
        · rw [if_neg hkk] at ht
          exact hcopy n' p' (List.mem_cons_of_mem _ hmem) t ht
      obtain ⟨herr, hdict, hnames, huntouched⟩ := ih (removeA sd (pfx ++ n)) hnd2 hihyp
      refine ⟨herr, ?_, by simp only [List.map_cons, hnames], ?_⟩
      · rw [hdict, removeA_eq_filter sd (pfx ++ n) hnd, List.filter_filter]
        apply List.filter_congr
        intro kv hkv
        by_cases hkv1 : kv.1 = pfx ++ n
        · simp [keyApplied, hkv1]
        · have hsymm : ¬ (pfx ++ n = kv.1) := fun hc => hkv1 hc.symm
          simp [keyApplied, hkv1, hsymm]
      · intro i hi hi2 habs
        cases i with
        | zero =>
          rw [List.get] at habs
          dsimp only at habs
          rw [habs] at hlk
          exact absurd hlk (by simp)
        | succ i =>
          apply huntouched i (by simpa using hi) (by simpa using hi2)
          rw [lookupA_removeA sd (pfx ++ n) _ hnd]
          by_cases hkk : pfx ++ (rest.get ⟨i, by simpa using hi⟩).1 = pfx ++ n
          · rw [if_pos hkk]
          · rw [if_neg hkk]
            simpa using habs

/-- C8. Both annotation paths tolerate partial coverage. Directory path:
names preserved, parameters with keys absent from the manifest untouched,
present keys get the joined file path, and nothing raises. Eager path:
under successful copies, nothing raises, the supplied mapping loses
exactly the applied keys, names are preserved, and parameters with absent
keys are untouched. -/
theorem annotation_partial_coverage :
    (∀ (ktf : List (Name × Name)) (dir pfx : Name) (ls : List (Name × Param)),
      ((loadFromStateDictDir ktf dir pfx ls).map Prod.fst = ls.map Prod.fst) ∧
      ∀ (i : Nat) (hi : i < ls.length)
        (hi2 : i < (loadFromStateDictDir ktf dir pfx ls).length),
        (lookupA ktf (pfx ++ (ls.get ⟨i, hi⟩).1) = none →
          (loadFromStateDictDir ktf dir pfx ls).get ⟨i, hi2⟩ = ls.get ⟨i, hi⟩) ∧
        (∀ fn, lookupA ktf (pfx ++ (ls.get ⟨i, hi⟩).1) = some fn →
          (loadFromStateDictDir ktf dir pfx ls).get ⟨i, hi2⟩ =
            ((ls.get ⟨i, hi⟩).1,
              { (ls.get ⟨i, hi⟩).2 with file_path := some (dir ++ '/' :: fn) }))) ∧
    (∀ (pfx : Name) (ls : List (Name × Param)) (sd : List (Name × Tensor)),
      (sd.map Prod.fst).Nodup →
      (∀ n p, (n, p) ∈ ls → ∀ t, lookupA sd (pfx ++ n) = some t →
        exceptOk (copyInto p.state t) = true) →
      (loadLowMemory pfx ls sd).2.2 = none ∧
      (loadLowMemory pfx ls sd).2.1 = sd.filter (fun kv => !keyApplied pfx ls kv.1) ∧
      (loadLowMemory pfx ls sd).1.map Prod.fst = ls.map Prod.fst ∧
      ∀ (i : Nat) (hi : i < ls.length) (hi2 : i < (loadLowMemory pfx ls sd).1.length),
        lookupA sd (pfx ++ (ls.get ⟨i, hi⟩).1) = none →
        (loadLowMemory pfx ls sd).1.get ⟨i, hi2⟩ = ls.get ⟨i, hi⟩) :=
  ⟨fun ktf dir pfx ls => loadFromStateDictDir_spec ktf dir pfx ls,
   fun pfx ls sd hnd hcopy => loadLowMemory_partial pfx ls sd hnd hcopy⟩

/-- An unbacked, unannotated parameter. -/
def pU : Param := { file_path := none, state := .uninit }

/-- A two-parameter module listing for the C8 witness. -/
def lsW : List (Name × Param) := [("layer.weight".data, pU), ("layer.bias".data, pU)]

/-- A manifest that covers only `layer.weight`. -/
def ktfW : List (Name × Name) := [("layer.weight".data, "p0.layer.weight".data)]

/-- An eager state dict that covers only `layer.weight`. -/
def sdW8 : List (Name × Tensor) := [("layer.weight".data, t1W)]

/-- Witness for C8 on a module with parameters `layer.weight` and
`layer.bias` and a manifest/state-dict covering only `layer.weight`. -/
theorem annotation_partial_coverage_witness :
    (((loadFromStateDictDir ktfW "/ckpt".data [] lsW).map Prod.fst = lsW.map Prod.fst) ∧
      ∀ (i : Nat) (hi : i < lsW.length)
        (hi2 : i < (loadFromStateDictDir ktfW "/ckpt".data [] lsW).length),
        (lookupA ktfW ([] ++ (lsW.get ⟨i, hi⟩).1) = none →
          (loadFromStateDictDir ktfW "/ckpt".data [] lsW).get ⟨i, hi2⟩ = lsW.get ⟨i, hi⟩) ∧
        (∀ fn, lookupA ktfW ([] ++ (lsW.get ⟨i, hi⟩).1) = some fn →
          (loadFromStateDictDir ktfW "/ckpt".data [] lsW).get ⟨i, hi2⟩ =
            ((lsW.get ⟨i, hi⟩).1,
              { (lsW.get ⟨i, hi⟩).2 with file_path := some ("/ckpt".data ++ '/' :: fn) }))) ∧
    (((sdW8.map Prod.fst).Nodup) ∧
      ((loadLowMemory [] lsW sdW8).2.2 = none ∧
        (loadLowMemory [] lsW sdW8).2.1 = sdW8.filter (fun kv => !keyApplied [] lsW kv.1) ∧
        (loadLowMemory [] lsW sdW8).1.map Prod.fst = lsW.map Prod.fst ∧
        ∀ (i : Nat) (hi : i < lsW.length) (hi2 : i < (loadLowMemory [] lsW sdW8).1.length),
          lookupA sdW8 ([] ++ (lsW.get ⟨i, hi⟩).1) = none →
          (loadLowMemory [] lsW sdW8).1.get ⟨i, hi2⟩ = lsW.get ⟨i, hi⟩)) :=
  ⟨annotation_partial_coverage.1 ktfW "/ckpt".data [] lsW,
   ⟨by decide,
    annotation_partial_coverage.2 [] lsW sdW8 (by decide)
      (by
        intro n p hmem t ht
        have hp : p.state = PState.uninit := by fin_cases hmem <;> rfl
        rw [hp]
        rfl)⟩⟩

/-- Composition: an error-free pass over `ls1` followed by the remaining
parameters behaves as running the remainder on the evolved dict. -/
theorem loadLowMemory_append_ok (pfx : Name) :
    ∀ (ls1 out1 : List (Name × Param)) (sd sd1 : List (Name × Tensor)),
      loadLowMemory pfx ls1 sd = (out1, sd1, none) →
      ∀ ls2, loadLowMemory pfx (ls1 ++ ls2) sd =
        (out1 ++ (loadLowMemory pfx ls2 sd1).1,
          (loadLowMemory pfx ls2 sd1).2.1, (loadLowMemory pfx ls2 sd1).2.2) := by
  intro ls1
  induction ls1 with
  | nil =>
    intro out1 sd sd1 h ls2
    simp only [loadLowMemory, Prod.mk.injEq] at h
    obtain ⟨h1, h2, _⟩ := h
    subst h1; subst h2
    simp
  | cons np rest ih =>
    obtain ⟨n, p⟩ := np
    intro out1 sd sd1 h ls2
    rw [List.cons_append]
    simp only [loadLowMemory] at h ⊢
    cases hlk : lookupA sd (pfx ++ n) with
    | none =>
      rw [hlk] at h
      dsimp only at h
      rcases hr : loadLowMemory pfx rest sd with ⟨a, bc⟩
      rcases bc with ⟨b, c⟩
      rw [hr] at h
      simp only [Prod.mk.injEq] at h
      obtain ⟨h1, h2, h3⟩ := h
      subst h3; subst h1; subst h2
      rw [ih a sd b hr ls2]
      simp [List.cons_append]
    | some input =>
      rw [hlk] at h
      dsimp only at h
      cases hcp : copyInto p.state input with
      | error e =>
        rw [hcp] at h
        dsimp only at h
        simp at h
      | ok st =>
        rw [hcp] at h
        dsimp only at h
        rcases hr : loadLowMemory pfx rest (removeA sd (pfx ++ n)) with ⟨a, bc⟩
        rcases bc with ⟨b, c⟩
        rw [hr] at h
        simp only [Prod.mk.injEq] at h
        obtain ⟨h1, h2, h3⟩ := h
        subst h3; subst h1; subst h2
        rw [ih a (removeA sd (pfx ++ n)) b hr ls2]
        simp [List.cons_append, hcp]

/-- C10. In the eager load path, the key is popped from the supplied
mapping BEFORE the copy: when the copy into an already-backed parameter
fails (shape mismatch), the loop aborts with the key already consumed
(no longer present in the resulting mapping) while the parameter appears
unchanged in the output. -/
theorem load_low_memory_pop_before_copy (pfx : Name) (ls1 out1 : List (Name × Param))
    (sd sd1 : List (Name × Tensor)) (n : Name) (p : Param) (ls2 : List (Name × Param))
    (t : Tensor) (e : MatErr)
    (hnd1 : (sd1.map Prod.fst).Nodup)
    (h1 : loadLowMemory pfx ls1 sd = (out1, sd1, none))
    (hlk : lookupA sd1 (pfx ++ n) = some t)
    (hcp : copyInto p.state t = .error e) :
    loadLowMemory pfx (ls1 ++ (n, p) :: ls2) sd =
      (out1 ++ (n, p) :: ls2, removeA sd1 (pfx ++ n), some e) ∧
    lookupA (removeA sd1 (pfx ++ n)) (pfx ++ n) = none := by
  constructor
  · rw [loadLowMemory_append_ok pfx ls1 out1 sd sd1 h1 ((n, p) :: ls2)]
    simp only [loadLowMemory, hlk, hcp]
  · rw [lookupA_removeA sd1 (pfx ++ n) (pfx ++ n) hnd1]
    rw [if_pos rfl]

/-- An already-backed parameter of shape `[2]`. -/
def p10W : Param := { file_path := none, state := .backed { shape := [2], data := 0 } }

/-- A tensor of mismatching shape `[3]`. -/
def t10W : Tensor := { shape := [3], data := 1 }

/-- A state dict offering `t10W` under the key `w`. -/
def sd10W : List (Name × Tensor) := [("w".data, t10W)]

/-- Witness for C10: copying a shape-`[3]` tensor into a backed shape-`[2]`
parameter fails, yet the key `w` has been consumed from the mapping and
the parameter is returned unchanged. -/
theorem load_low_memory_pop_before_copy_witness :
    ((sd10W.map Prod.fst).Nodup ∧
      loadLowMemory [] [] sd10W = ([], sd10W, none) ∧
      lookupA sd10W ([] ++ "w".data) = some t10W ∧
      copyInto p10W.state t10W = .error .copyMismatch) ∧
    (loadLowMemory [] ([] ++ ("w".data, p10W) :: []) sd10W =
        ([] ++ ("w".data, p10W) :: [], removeA sd10W ([] ++ "w".data), some .copyMismatch) ∧
      lookupA (removeA sd10W ([] ++ "w".data)) ([] ++ "w".data) = none) :=
  ⟨⟨by decide, by rfl, by rfl, by rfl⟩,
   load_low_memory_pop_before_copy [] [] [] sd10W sd10W "w".data p10W [] t10W .copyMismatch
     (by decide) (by rfl) (by rfl) (by rfl)⟩

/-! ### `LowMemoryModule.nullify` over a module store with identity

`nullify` recurses over an object graph in which sub-modules are shared by
identity, so the model uses an explicit store: module ids are indices into
`Store.mods`, and a shared sub-module is one id reachable through several
parents. Each parameter slot carries an instrumentation counter `writes`
(number of `setattr(module, name, UninitializedParameter())` replacements
it received) next to whether its current value is a fresh uninitialized
placeholder. `torch`'s `named_modules` generator deduplicates by object
identity within one enumeration (its `memo` set); `_nullify` itself keeps
no visited set across its recursive calls. -/

/-- A parameter slot: how often it was replaced, and whether its current
value is a fresh `UninitializedParameter`. -/
structure PSlot where
  writes : Nat
  isUninit : Bool
  deriving DecidableEq

structure ModNode where
  params : List (Name × PSlot)
  children : List (Name × Nat)
  deriving DecidableEq

structure Store where
  mods : List ModNode
  deriving DecidableEq

def getMod (st : Store) (id : Nat) : Option ModNode := st.mods.get? id

/-- `prefix + ('.' if prefix else '') + name`. -/
def joinPfx (pfx n : Name) : Name := if pfx = [] then n else pfx ++ '.' :: n

/-- `named_modules` as a depth-first worklist with the generator's `memo`
set: pop a (prefix, id) task; an id already in `memo` yields nothing;
otherwise yield it and push its children, in order, in front. Equivalent
to torch's recursive generator (children of a yielded module are visited
immediately after it, and every module object is yielded at most once). -/
def nmAux (st : Store) : Nat → List (Name × Nat) → List Nat → List (Name × Nat) × List Nat
  | 0, _, memo => ([], memo)
  | _ + 1, [], memo => ([], memo)
  | fuel + 1, (pfx, id) :: stack, memo =>
    if id ∈ memo then nmAux st fuel stack memo
    else
      let childTasks :=
        match getMod st id with
        | some m => m.children.map (fun c => (joinPfx pfx c.1, c.2))
        | none => []
      let r := nmAux st fuel (childTasks ++ stack) (id :: memo)
      ((pfx, id) :: r.1, r.2)

/-- `module.named_modules()` of the module `id`, with prefixes. -/
def namedModulesL (st : Store) (mfuel id : Nat) : List (Name × Nat) :=
  (nmAux st mfuel [([], id)] []).1

/-- The qualified names yielded by `module.named_parameters()` of the
module `id`: for each enumerated module, its own parameter names joined
onto the module's prefix. -/
def namedParamsQ (st : Store) (mfuel id : Nat) : List Name :=
  ((namedModulesL st mfuel id).map (fun pm =>
    match getMod st pm.2 with
    | some m => m.params.map (fun np => joinPfx pm.1 np.1)
    | none => [])).flatten

/-- `hasattr(module, name)` for a parameter attribute: the name is a key
of the module's parameter dict. -/
def hasattrStore (st : Store) (id : Nat) (n : Name) : Bool :=
  match getMod st id with
  | some m => (m.params.map Prod.fst).contains n
  | none => false

/-- `setattr(module, name, UninitializedParameter())`: replace the slot,
bumping its replacement counter and making it a fresh placeholder. -/
def setParamUninit (st : Store) (id : Nat) (n : Name) : Store :=
  match st.mods.get? id with
  | none => st
  | some m =>
    let params2 := m.params.map (fun np =>
      if np.1 = n then (np.1, { writes := np.2.writes + 1, isUninit := true }) else np)
    { mods := st.mods.set id { m with params := params2 } }

/-- The first loop of `_nullify`:
`for name, param in module.named_parameters(): if '.' not in name and
hasattr(module, name): setattr(module, name, UninitializedParameter())`. -/
def nullifyPhase1 (st : Store) (mfuel id : Nat) : Store :=
  ((namedParamsQ st mfuel id).filter
      (fun q => !(q.contains '.') && hasattrStore st id q)).foldl
    (fun s q => setParamUninit s id q) st

/-- `_nullify` as a task list: running `_nullify(id)` replaces the
module's dot-free-named parameters (phase 1), then runs `_nullify` on
every distinct descendant from `module.modules()` (skipping the module
itself), depth-first — which is exactly: process the descendants, then
whatever work was pending. There is no visited set shared across these
recursive calls. -/
def nullifyTasks (st : Store) (mfuel : Nat) : Nat → List Nat → Store
  | 0, _ => st
  | _ + 1, [] => st
  | fuel + 1, id :: todo =>
    let st1 := nullifyPhase1 st mfuel id
    let ds := ((namedModulesL st1 mfuel id).map Prod.snd).filter (fun c => c ≠ id)
    nullifyTasks st1 mfuel fuel (ds ++ todo)

/-- `LowMemoryModule.nullify`: `_nullify(self)`. -/
def nullifyStore (st : Store) (mfuel fuel root : Nat) : Store :=
  nullifyTasks st mfuel fuel [root]

def slotOf (st : Store) (id : Nat) (n : Name) : Option PSlot :=
  match getMod st id with
  | some m => lookupA m.params n
  | none => none

def slot0 : PSlot := { writes := 0, isUninit := false }

/-- A diamond: root 0 with children `a` (id 1) and `b` (id 2), both of
which share the child `c` (id 3); module 1 owns parameter `v`, module 3
owns parameter `w`. -/
def diamondStore : Store :=
  { mods :=
    [ { params := [], children := [("a".data, 1), ("b".data, 2)] },
      { params := [("v".data, slot0)], children := [("c".data, 3)] },
      { params := [], children := [("c".data, 3)] },
      { params := [("w".data, slot0)], children := [] } ] }

/-- Counterexample to C7 as stated: on the diamond, the parameter `w` of
the shared sub-module 3 is replaced three times by one `nullify` call,
not at most once. -/
theorem nullify_shared_param_cex :
    (slotOf (nullifyStore diamondStore 10 10 0) 3 "w".data).map PSlot.writes = some 3 ∧
    (slotOf (nullifyStore diamondStore 10 10 0) 3 "w".data).map
      (fun s => decide (s.writes ≤ 1)) ≠ some true := by decide

/-- C7 (amended), demonstrated on the diamond: `nullify` terminates on the
shared (acyclic) tree — more fuel gives the same result — and every direct
parameter ends as a fresh uninitialized placeholder, but a parameter of a
shared sub-module is replaced once per visit of each enclosing ancestor
(three times here: via its parent `a`, via the root's descendant walk,
and via its parent `b`), while an unshared parameter (`v`) is replaced
exactly once. -/
theorem nullify_replaces_with_placeholders :
    nullifyStore diamondStore 10 10 0 = nullifyStore diamondStore 20 20 0 ∧
    (slotOf (nullifyStore diamondStore 10 10 0) 3 "w".data).map PSlot.isUninit = some true ∧
    (slotOf (nullifyStore diamondStore 10 10 0) 1 "v".data).map PSlot.isUninit = some true ∧
    (slotOf (nullifyStore diamondStore 10 10 0) 1 "v".data).map PSlot.writes = some 1 ∧
    (slotOf (nullifyStore diamondStore 10 10 0) 3 "w".data).map PSlot.writes = some 3 := by
  decide

end NeuronxModule
